import Mathlib

/-!
# Package-name resolvers of `decorator/resolver/resolver.go`

A shallow embedding of the two table-backed package resolvers `Guess` and `Map`
and of the Go primitives their bodies use (comma-ok map indexing,
`strings.Contains`, `strings.LastIndex`, the slice expression `s[lo:]`).

* A Go `string` is a finite sequence of bytes: `GoString = List UInt8`.
* A Go `map[string]string` is a finite map with unique keys: `GoMap`, an
  association list without duplicate keys.  The nil map and the empty map
  read alike and are both `∅`.
* A Go `error` is `none` for `nil`, or `some e` for a non-nil error value.
* A run-time panic is the outcome `none` of a function returning `Option`.
* Each method body is given twice: as a function of the table, and in
  state-passing form, where the table is threaded through the map operations
  of the body; the two forms are proved to agree.
-/

set_option linter.unusedVariables false

namespace resolver

/-- A Go string: an immutable sequence of bytes. -/
abbrev GoString := List UInt8

/-- The bytes (UTF-8) of a string literal of the source. -/
def str (s : String) : GoString := s.data.flatMap String.utf8EncodeChar

/-- The concrete type behind `errors.New`: an error carrying its message. -/
structure errorString where
  s : GoString
  deriving DecidableEq, Repr

/-- A Go `error` interface value; `none` is `nil`. -/
abbrev error := Option errorString

/-- Go `errors.New(text)`. -/
def errors.New (text : GoString) : error := some ⟨text⟩

/-- Source line 40: `var PackageNotFoundError = errors.New("package not found")`. -/
def PackageNotFoundError : error := errors.New (str "package not found")

/-- A Go `map[string]string`. -/
abbrev GoMap := AList (fun _ : GoString => GoString)

/-- The comma-ok index expression `n, ok := m[k]`: the stored value and `true`
when `k` is a key, the zero value `""` and `false` otherwise. -/
def GoMap.index (m : GoMap) (k : GoString) : GoString × Bool :=
  match m.lookup k with
  | some v => (v, true)
  | none => ([], false)

/-- Go `strings.Index(s, substr)`: the index of the first instance of `substr`
in `s`, or `-1` if `substr` is not present in `s`. -/
def strings.Index : GoString → GoString → Int
  | [], substr => if substr = [] then 0 else -1
  | c :: s, substr =>
    if substr.isPrefixOf (c :: s) then 0
    else
      let i := strings.Index s substr
      if i < 0 then -1 else i + 1

/-- Go `strings.Contains(s, substr)`, which is `Index(s, substr) >= 0`. -/
def strings.Contains (s substr : GoString) : Bool :=
  decide (strings.Index s substr ≥ 0)

/-- Go `strings.LastIndex(s, substr)`: the index of the last instance of
`substr` in `s`, or `-1` if `substr` is not present in `s`. -/
def strings.LastIndex : GoString → GoString → Int
  | [], substr => if substr = [] then 0 else -1
  | c :: s, substr =>
    let i := strings.LastIndex s substr
    if 0 ≤ i then i + 1
    else if substr.isPrefixOf (c :: s) then 0
    else -1

/-- The Go slice expression `s[lo:]` on a string: `none` is the run-time panic
raised when `lo` is out of range (`lo < 0` or `lo > len(s)`). -/
def sliceFrom (s : GoString) (lo : Int) : Option GoString :=
  if 0 ≤ lo ∧ lo ≤ (s.length : Int) then some (s.drop lo.toNat) else none

/-- Source line 45: `type Guess map[string]string`. -/
abbrev Guess := GoMap

/-- Source line 60: `type Map map[string]string`. -/
abbrev Map := GoMap

/-- Source lines 47-55, `func (r Guess) ResolvePackage(importPath, fromDir string)
(string, error)`.  The result `some (name, err)` is a normal return, `none` a
panic of the slice expression. -/
def Guess.ResolvePackage (r : Guess) (importPath fromDir : GoString) :
    Option (GoString × error) :=
  let (n, ok) := GoMap.index r importPath
  if ok then
    some (n, none)
  else if !strings.Contains importPath (str "/") then
    some (importPath, none)
  else
    match sliceFrom importPath (strings.LastIndex importPath (str "/") + 1) with
    | some name => some (name, none)
    | none => none

/-- Source lines 62-67, `func (r Map) ResolvePackage(importPath, fromDir string)
(string, error)`.  Nothing in the body can panic. -/
def Map.ResolvePackage (r : Map) (importPath fromDir : GoString) : GoString × error :=
  let (n, ok) := GoMap.index r importPath
  if ok then
    (n, none)
  else
    ([], PackageNotFoundError)

/-! ## Identifier resolution

The source declares the capability `IdentResolver` (lines 34-38) and explains
in its opening comment why it needs the facts of the type checker; no
implementation of `ResolveIdent` is part of the file.  The definitions below
follow the contract of the specification (sections 3, 4.1 and 4.2). -/

/-- Modelled from the spec: an identifier occurrence, "a reference to a name at
a specific location in a source file" (the argument `id` of `ResolveIdent`,
whose implementation is missing). -/
structure Ident where
  NamePos : Nat
  Name : GoString
  deriving DecidableEq, Repr

/-- Modelled from the spec: an import path as the type facts and the import
declarations carry it, "a non-empty import path string" (section 4.1) naming a
package (missing: the facts consulted by the absent `ResolveIdent`). -/
abbrev ImportPath := { s : GoString // s ≠ [] }

/-- Modelled from the spec: the declaring entity that the type/scope facts bind
an identifier occurrence to (missing: the facts consulted by the absent
`ResolveIdent`): a builtin or keyword, a local declaration, or a declaration in
the package of an import path. -/
inductive DeclaringScope where
  | universe
  | localDecl
  | importedPackage (path : ImportPath)
  deriving DecidableEq

/-- Modelled from the spec: the externally computed type/scope facts (the
argument `info` of the absent `ResolveIdent`), a finite map from identifier
occurrences to their declaring entity. -/
structure TypeInfo where
  Uses : AList (fun _ : Ident => DeclaringScope)

/-- Modelled from the spec: one import of the containing file (missing: the
file model handed to the absent `ResolveIdent`); `Name` is `some "."` for a
wildcard import. -/
structure ImportSpec where
  Name : Option GoString
  Path : ImportPath
  deriving DecidableEq

/-- Modelled from the spec: the containing file with its active imports (the
argument `file` of the absent `ResolveIdent`). -/
structure File where
  Imports : List ImportSpec

/-- Modelled from the spec: the "unresolved identifier" error kind of section 7
(returned by the absent `ResolveIdent`). -/
def UnresolvedIdentError : error := errors.New (str "unresolved identifier")

/-- Modelled from the spec: `ResolveIdent`, declared by `IdentResolver` at
source line 37 and implemented nowhere in the file.  Section 4.2: the output is
"the import path that declared the identifier, or the empty string if the
identifier is not import-introduced (i.e., it is a local declaration, builtin,
or keyword)"; it "may fail when type/scope facts are insufficient to determine
provenance".  Provenance is read from the facts, never from the spelling. -/
def ResolveIdent (id : Ident) (info : TypeInfo) (file : File) (dir : GoString) :
    GoString × error :=
  match info.Uses.lookup id with
  | none => ([], UnresolvedIdentError)
  | some DeclaringScope.universe => ([], none)
  | some DeclaringScope.localDecl => ([], none)
  | some (DeclaringScope.importedPackage path) => (path.val, none)

/-! ## The resolvers in state-passing form

A Go map value is a reference to a hash table, so the table behind the receiver
`r` is state that a method body could change.  Here the table is threaded
through the body statement by statement: each map operation takes the table
as it is and hands on the table it leaves. -/

/-- The comma-ok read `v, ok := r[k]` as a step on the table: the value read
and the table after the read, which a read leaves as it was. -/
def mapaccess2 (k : GoString) (h : GoMap) : (GoString × Bool) × GoMap :=
  (GoMap.index h k, h)

/-- The assignment `r[k] = v` as a step on the table. -/
def mapassign (k v : GoString) (h : GoMap) : Unit × GoMap :=
  ((), h.insert k v)

/-- The statement `delete(r, k)` as a step on the table. -/
def mapdelete (k : GoString) (h : GoMap) : Unit × GoMap :=
  ((), h.erase k)

/-- Source lines 47-55 in state-passing form: `h` is the table behind the
receiver when the call starts; the result pairs the outcome of the call with
the table when the call ends. -/
def Guess.execResolvePackage (importPath fromDir : GoString) (h : GoMap) :
    Option (GoString × error) × GoMap :=
  let ((n, ok), h1) := mapaccess2 importPath h
  if ok then
    (some (n, none), h1)
  else if !strings.Contains importPath (str "/") then
    (some (importPath, none), h1)
  else
    match sliceFrom importPath (strings.LastIndex importPath (str "/") + 1) with
    | some name => (some (name, none), h1)
    | none => (none, h1)

/-- Source lines 62-67 in state-passing form: `h` is the table behind the
receiver when the call starts; the result pairs the returned values with the
table when the call ends. -/
def Map.execResolvePackage (importPath fromDir : GoString) (h : GoMap) :
    (GoString × error) × GoMap :=
  let ((n, ok), h1) := mapaccess2 importPath h
  if ok then
    ((n, none), h1)
  else
    (([], PackageNotFoundError), h1)

/-! ## Helper lemmas on the Go primitives -/

theorem str_slash : str "/" = [0x2F] := by decide

theorem index_of_lookup_some {m : GoMap} {k v : GoString} (h : m.lookup k = some v) :
    GoMap.index m k = (v, true) := by
  simp [GoMap.index, h]

theorem index_of_lookup_none {m : GoMap} {k : GoString} (h : m.lookup k = none) :
    GoMap.index m k = ([], false) := by
  simp [GoMap.index, h]

theorem isPrefixOf_single (c a : UInt8) (s : GoString) :
    List.isPrefixOf [c] (a :: s) = true ↔ c = a := by
  simp [List.isPrefixOf]

theorem Index_single_nonneg (c : UInt8) (s : GoString) :
    0 ≤ strings.Index s [c] ↔ c ∈ s := by
  induction s with
  | nil => simp [strings.Index]
  | cons a s ih =>
    by_cases hca : c = a
    · simp [strings.Index, hca]
    · have hp : ¬ List.isPrefixOf [c] (a :: s) = true := by
        rw [isPrefixOf_single]; exact hca
      simp only [strings.Index, hp, List.mem_cons, hca, false_or]
      rw [← ih]
      by_cases hi : strings.Index s [c] < 0
      · simp [hi]
      · simp [hi]; omega

theorem Contains_single (c : UInt8) (s : GoString) :
    strings.Contains s [c] = true ↔ c ∈ s := by
  simp [strings.Contains, Index_single_nonneg]

theorem LastIndex_single_of_not_mem (c : UInt8) (s : GoString) (h : c ∉ s) :
    strings.LastIndex s [c] = -1 := by
  induction s with
  | nil => simp [strings.LastIndex]
  | cons a s ih =>
    have hca : c ≠ a := fun e => h (by simp [e])
    have hs : c ∉ s := fun e => h (List.mem_cons_of_mem _ e)
    have hp : ¬ List.isPrefixOf [c] (a :: s) = true := by
      rw [isPrefixOf_single]; exact hca
    simp [strings.LastIndex, ih hs, hp]

theorem LastIndex_single_append (c : UInt8) (pre suf : GoString) (h : c ∉ suf) :
    strings.LastIndex (pre ++ c :: suf) [c] = (pre.length : Int) := by
  induction pre with
  | nil =>
    simp [strings.LastIndex, LastIndex_single_of_not_mem c suf h]
  | cons a pre ih =>
    have : (0 : Int) ≤ (pre.length : Int) := Int.ofNat_nonneg _
    simp [strings.LastIndex, ih, this]

/-- Every string containing `c` splits at the last occurrence of `c`. -/
theorem exists_last_split (c : UInt8) (s : GoString) (h : c ∈ s) :
    ∃ pre suf, s = pre ++ c :: suf ∧ c ∉ suf := by
  induction s with
  | nil => simp at h
  | cons a s ih =>
    by_cases hs : c ∈ s
    · obtain ⟨pre, suf, rfl, hsuf⟩ := ih hs
      exact ⟨a :: pre, suf, rfl, hsuf⟩
    · have hca : c = a := by
        rcases List.mem_cons.1 h with e | e
        · exact e
        · exact absurd e hs
      exact ⟨[], s, by simp [hca], hs⟩

theorem sliceFrom_append (pre suf : GoString) (c : UInt8) :
    sliceFrom (pre ++ c :: suf) ((pre.length : Int) + 1) = some suf := by
  have h1 : (0 : Int) ≤ (pre.length : Int) + 1 := by omega
  have h2 : (pre.length : Int) + 1 ≤ ((pre ++ c :: suf).length : Int) := by
    simp only [List.length_append, List.length_cons]; push_cast; omega
  have h3 : ((pre.length : Int) + 1).toNat = pre.length + 1 := by omega
  simp only [sliceFrom, h1, h2, and_self, if_true, h3]
  congr 1
  rw [show pre ++ c :: suf = (pre ++ [c]) ++ suf by simp]
  exact List.drop_left' (by simp)

/-- The fallback of `Guess.ResolvePackage` on a path without a slash. -/
theorem Guess_miss_noslash (r : Guess) (p d : GoString)
    (hk : r.lookup p = none) (hs : (0x2F : UInt8) ∉ p) :
    Guess.ResolvePackage r p d = some (p, none) := by
  have hc : strings.Contains p [0x2F] = false := by
    rw [← Bool.not_eq_true, Contains_single]; exact hs
  simp [Guess.ResolvePackage, index_of_lookup_none hk, str_slash, hc]

/-- The fallback of `Guess.ResolvePackage` on a path split at its last slash. -/
theorem Guess_miss_slash (r : Guess) (pre suf d : GoString)
    (hk : r.lookup (pre ++ 0x2F :: suf) = none) (hs : (0x2F : UInt8) ∉ suf) :
    Guess.ResolvePackage r (pre ++ 0x2F :: suf) d = some (suf, none) := by
  have hc : strings.Contains (pre ++ 0x2F :: suf) [0x2F] = true := by
    rw [Contains_single]; simp
  simp [Guess.ResolvePackage, index_of_lookup_none hk, str_slash, hc,
    LastIndex_single_append _ _ _ hs, sliceFrom_append]

/-- On a table hit `Guess.ResolvePackage` returns the table entry. -/
theorem Guess_hit (r : Guess) (p d n : GoString) (hk : r.lookup p = some n) :
    Guess.ResolvePackage r p d = some (n, none) := by
  simp [Guess.ResolvePackage, index_of_lookup_some hk]

/-- On a table miss `Guess.ResolvePackage` returns normally, with a nil error,
either the whole path (no slash in it) or what follows its last slash. -/
theorem Guess_miss_cases (r : Guess) (p d : GoString) (hk : r.lookup p = none) :
    ∃ n, Guess.ResolvePackage r p d = some (n, none) ∧
      (((0x2F : UInt8) ∉ p ∧ n = p) ∨
        ∃ pre, p = pre ++ 0x2F :: n ∧ (0x2F : UInt8) ∉ n) := by
  by_cases hs : (0x2F : UInt8) ∈ p
  · obtain ⟨pre, suf, rfl, hsuf⟩ := exists_last_split _ p hs
    exact ⟨suf, Guess_miss_slash r pre suf d hk hsuf, Or.inr ⟨pre, rfl, hsuf⟩⟩
  · exact ⟨p, Guess_miss_noslash r p d hk hs, Or.inl ⟨hs, rfl⟩⟩

theorem LastIndex_single_bounds (c : UInt8) (s : GoString) :
    -1 ≤ strings.LastIndex s [c] ∧ strings.LastIndex s [c] < (s.length : Int) := by
  by_cases hs : c ∈ s
  · obtain ⟨pre, suf, rfl, hsuf⟩ := exists_last_split c s hs
    rw [LastIndex_single_append c pre suf hsuf]
    simp only [List.length_append, List.length_cons]
    push_cast
    omega
  · rw [LastIndex_single_of_not_mem c s hs]
    omega

/-! ## The library functions meet their documented contract

For an arbitrary `substr`, an instance of `substr` in `s` at index `j` is
`substr.isPrefixOf (s.drop j)` with `j ≤ len(s)`. -/

/-- `strings.LastIndex` returns `-1` or an index at which `substr` occurs, and
no instance of `substr` in `s` lies beyond the index returned. -/
theorem LastIndex_spec (s substr : GoString) :
    (strings.LastIndex s substr = -1 ∨ 0 ≤ strings.LastIndex s substr) ∧
      (0 ≤ strings.LastIndex s substr →
        substr.isPrefixOf (s.drop (strings.LastIndex s substr).toNat) = true) ∧
      (∀ j : Nat, j ≤ s.length → substr.isPrefixOf (s.drop j) = true →
        (j : Int) ≤ strings.LastIndex s substr) := by
  induction s with
  | nil =>
    by_cases hsub : substr = []
    · subst hsub
      simp [strings.LastIndex]
    · refine ⟨by simp [strings.LastIndex, hsub], by simp [strings.LastIndex, hsub], ?_⟩
      intro j _ hj
      cases substr with
      | nil => exact absurd rfl hsub
      | cons a t => simp [List.isPrefixOf] at hj
  | cons c s ih =>
    obtain ⟨ih1, ih2, ih3⟩ := ih
    by_cases hi : 0 ≤ strings.LastIndex s substr
    · have hval : strings.LastIndex (c :: s) substr = strings.LastIndex s substr + 1 := by
        simp [strings.LastIndex, hi]
      have hnat : (strings.LastIndex s substr + 1).toNat
          = (strings.LastIndex s substr).toNat + 1 := by omega
      rw [hval]
      refine ⟨Or.inr (by omega), fun _ => ?_, ?_⟩
      · rw [hnat, List.drop_succ_cons]
        exact ih2 hi
      · intro j hj hpre
        cases j with
        | zero => simp only [Nat.cast_zero]; omega
        | succ k =>
          have := ih3 k (by simpa using hj) (by simpa using hpre)
          push_cast
          omega
    · have hnone : ∀ k : Nat, k ≤ s.length → ¬ substr.isPrefixOf (s.drop k) = true := by
        intro k hk hpre
        have := ih3 k hk hpre
        omega
      by_cases hp : substr.isPrefixOf (c :: s) = true
      · have hval : strings.LastIndex (c :: s) substr = 0 := by
          simp [strings.LastIndex, hi, hp]
        rw [hval]
        refine ⟨Or.inr (le_refl _), fun _ => by simpa using hp, ?_⟩
        intro j hj hpre
        cases j with
        | zero => simp
        | succ k => exact absurd (by simpa using hpre) (hnone k (by simpa using hj))
      · have hval : strings.LastIndex (c :: s) substr = -1 := by
          simp [strings.LastIndex, hi, hp]
        rw [hval]
        refine ⟨Or.inl rfl, fun h => absurd h (by decide), ?_⟩
        intro j hj hpre
        cases j with
        | zero => exact absurd (by simpa using hpre) hp
        | succ k => exact absurd (by simpa using hpre) (hnone k (by simpa using hj))

/-- `strings.Index` returns `-1` or an index at which `substr` occurs, and every
instance of `substr` in `s` lies at or after the (non-negative) index returned. -/
theorem Index_spec (s substr : GoString) :
    (strings.Index s substr = -1 ∨ 0 ≤ strings.Index s substr) ∧
      (0 ≤ strings.Index s substr →
        substr.isPrefixOf (s.drop (strings.Index s substr).toNat) = true) ∧
      (∀ j : Nat, j ≤ s.length → substr.isPrefixOf (s.drop j) = true →
        0 ≤ strings.Index s substr ∧ strings.Index s substr ≤ (j : Int)) := by
  induction s with
  | nil =>
    by_cases hsub : substr = []
    · subst hsub
      simp [strings.Index]
    · refine ⟨by simp [strings.Index, hsub], by simp [strings.Index, hsub], ?_⟩
      intro j _ hj
      cases substr with
      | nil => exact absurd rfl hsub
      | cons a t => simp [List.isPrefixOf] at hj
  | cons c s ih =>
    obtain ⟨ih1, ih2, ih3⟩ := ih
    by_cases hp : substr.isPrefixOf (c :: s) = true
    · have hval : strings.Index (c :: s) substr = 0 := by simp [strings.Index, hp]
      rw [hval]
      refine ⟨Or.inr (le_refl _), fun _ => by simpa using hp, ?_⟩
      intro j _ _
      exact ⟨le_refl _, Int.ofNat_nonneg j⟩
    · by_cases hi : strings.Index s substr < 0
      · have hval : strings.Index (c :: s) substr = -1 := by
          simp [strings.Index, hp, hi]
        rw [hval]
        refine ⟨Or.inl rfl, fun h => absurd h (by decide), ?_⟩
        intro j hj hpre
        cases j with
        | zero => exact absurd (by simpa using hpre) hp
        | succ k =>
          have := ih3 k (by simpa using hj) (by simpa using hpre)
          omega
      · have hval : strings.Index (c :: s) substr = strings.Index s substr + 1 := by
          simp [strings.Index, hp, hi]
        have hnat : (strings.Index s substr + 1).toNat
            = (strings.Index s substr).toNat + 1 := by omega
        rw [hval]
        refine ⟨Or.inr (by omega), fun _ => ?_, ?_⟩
        · rw [hnat, List.drop_succ_cons]
          exact ih2 (by omega)
        · intro j hj hpre
          cases j with
          | zero => exact absurd (by simpa using hpre) hp
          | succ k =>
            have := ih3 k (by simpa using hj) (by simpa using hpre)
            push_cast
            omega

/-! ## The model of the library functions on the documented examples -/

theorem Index_chicken : strings.Index (str "chicken") (str "ken") = 4 := by decide

theorem Index_chicken_dmr : strings.Index (str "chicken") (str "dmr") = -1 := by decide

theorem LastIndex_go_gopher : strings.LastIndex (str "go gopher") (str "go") = 3 := by decide

theorem LastIndex_go_rodent : strings.LastIndex (str "go gopher") (str "rodent") = -1 := by
  decide

theorem LastIndex_empty_substr : strings.LastIndex (str "abc") (str "") = 3 := by decide

/-! ## The state-passing form against the functional form -/

/-- The map writes do change the table: after `r[k] = v` the key `k` holds `v`. -/
theorem mapassign_lookup (k v : GoString) (h : GoMap) :
    (mapassign k v h).2.lookup k = some v := by
  simp [mapassign]

/-- After `delete(r, k)` the key `k` is gone. -/
theorem mapdelete_lookup (k : GoString) (h : GoMap) :
    (mapdelete k h).2.lookup k = none := by
  simp [mapdelete]

/-- A run of the body of `Guess.ResolvePackage` returns what the functional form
computes and ends on the table it started on. -/
theorem Guess_exec_eq (p d : GoString) (h : GoMap) :
    Guess.execResolvePackage p d h = (Guess.ResolvePackage h p d, h) := by
  unfold Guess.execResolvePackage Guess.ResolvePackage mapaccess2
  cases hl : GoMap.index h p with
  | mk n ok =>
    cases ok with
    | true => simp
    | false =>
      by_cases hc : strings.Contains p (str "/") = true
      · cases hsl : sliceFrom p (strings.LastIndex p (str "/") + 1) <;> simp [hc, hsl]
      · simp [hc]

/-- A run of the body of `Map.ResolvePackage` returns what the functional form
computes and ends on the table it started on. -/
theorem Map_exec_eq (p d : GoString) (h : GoMap) :
    Map.execResolvePackage p d h = (Map.ResolvePackage h p d, h) := by
  unfold Map.execResolvePackage Map.ResolvePackage mapaccess2
  cases hl : GoMap.index h p with
  | mk n ok => cases ok <;> simp

/-! ## Claims -/

/-- C1: when the import path `p` is a key of the table `T` with `T[p] = n`, both
`Guess(T).ResolvePackage(p, d)` and `Map(T).ResolvePackage(p, d)` return the
name `n` with a nil error, whatever `n` and the directory `d` are. -/
theorem C1_table_entry_wins (T : GoMap) (p d n : GoString) (h : T.lookup p = some n) :
    Guess.ResolvePackage T p d = some (n, none) ∧ Map.ResolvePackage T p d = (n, none) := by
  simp [Guess.ResolvePackage, Map.ResolvePackage, index_of_lookup_some h]

theorem C1_table_entry_wins_witness :
    (AList.singleton (str "encoding/json") (str "json") : GoMap).lookup (str "encoding/json")
        = some (str "json") ∧
      Guess.ResolvePackage (AList.singleton (str "encoding/json") (str "json"))
        (str "encoding/json") (str ".") = some (str "json", none) ∧
      Map.ResolvePackage (AList.singleton (str "encoding/json") (str "json"))
        (str "encoding/json") (str ".") = (str "json", none) :=
  ⟨by decide, C1_table_entry_wins _ _ _ _ (by decide)⟩

/-- C2: when the import path `p` is not a key of the table `T`,
`Guess(T).ResolvePackage(p, d)` returns with a nil error a name `n` that is `p`
itself when `p` holds no slash, and otherwise the part of `p` after its last
slash: `p = pre ++ "/" ++ n` with no slash in `n`. -/
theorem C2_guess_last_segment (T : GoMap) (p d : GoString) (hp : p ∉ T) :
    ∃ n, Guess.ResolvePackage T p d = some (n, none) ∧
      (((0x2F : UInt8) ∉ p ∧ n = p) ∨
        ∃ pre, p = pre ++ 0x2F :: n ∧ (0x2F : UInt8) ∉ n) :=
  Guess_miss_cases T p d (AList.lookup_eq_none.2 hp)

theorem C2_guess_last_segment_witness :
    (str "company/internal/widgets" ∉ (∅ : GoMap) ∧
      ∃ n, Guess.ResolvePackage ∅ (str "company/internal/widgets") (str ".") = some (n, none) ∧
        (((0x2F : UInt8) ∉ str "company/internal/widgets" ∧
            n = str "company/internal/widgets") ∨
          ∃ pre, str "company/internal/widgets" = pre ++ 0x2F :: n ∧ (0x2F : UInt8) ∉ n)) ∧
      Guess.ResolvePackage ∅ (str "company/internal/widgets") (str ".")
        = some (str "widgets", none) ∧
      Guess.ResolvePackage ∅ (str "fmt") (str ".") = some (str "fmt", none) :=
  ⟨⟨AList.not_mem_empty _, C2_guess_last_segment ∅ _ _ (AList.not_mem_empty _)⟩,
    by decide, by decide⟩

/-- C3: `Map(T).ResolvePackage(p, d)` returns a non-nil error exactly when `p` is
not a key of `T`; a call either returns a nil error or returns the empty name
together with the sentinel `PackageNotFoundError`, which is not nil; on the
empty table the path `"fmt"` gives `("", PackageNotFoundError)`. -/
theorem C3_map_errors_exactly_on_miss (T : GoMap) (p d : GoString) :
    ((Map.ResolvePackage T p d).2 ≠ none ↔ p ∉ T) ∧
      ((Map.ResolvePackage T p d).2 = none ∨
        Map.ResolvePackage T p d = ([], PackageNotFoundError)) ∧
      PackageNotFoundError ≠ none ∧
      Map.ResolvePackage ∅ (str "fmt") (str ".") = ([], PackageNotFoundError) := by
  refine ⟨?_, ?_, by simp [PackageNotFoundError, errors.New], by decide⟩
  · cases h : T.lookup p with
    | none =>
      have hp : p ∉ T := AList.lookup_eq_none.1 h
      simp [Map.ResolvePackage, index_of_lookup_none h, PackageNotFoundError, errors.New, hp]
    | some n =>
      have hp : p ∈ T := AList.lookup_isSome.1 (by simp [h])
      simp [Map.ResolvePackage, index_of_lookup_some h, hp]
  · cases h : T.lookup p with
    | none => simp [Map.ResolvePackage, index_of_lookup_none h]
    | some n => simp [Map.ResolvePackage, index_of_lookup_some h]

/-- C4: for every table `T`, every import path `p` (non-empty or not, key of `T`
or not) and every directory `d`, `Guess(T).ResolvePackage(p, d)` returns normally
with a nil error, and the slice `importPath[LastIndex(importPath, "/")+1:]` is
within bounds: it does not panic. -/
theorem C4_guess_total (T : GoMap) (p d : GoString) :
    (∃ n, Guess.ResolvePackage T p d = some (n, none)) ∧
      (0 ≤ strings.LastIndex p (str "/") + 1 ∧
        strings.LastIndex p (str "/") + 1 ≤ (p.length : Int)) ∧
      (sliceFrom p (strings.LastIndex p (str "/") + 1)).isSome = true := by
  have hb := LastIndex_single_bounds 0x2F p
  have hb2 : 0 ≤ strings.LastIndex p (str "/") + 1 ∧
      strings.LastIndex p (str "/") + 1 ≤ (p.length : Int) := by
    rw [str_slash]; omega
  refine ⟨?_, hb2, ?_⟩
  · cases h : T.lookup p with
    | none =>
      obtain ⟨n, hn, _⟩ := Guess_miss_cases T p d h
      exact ⟨n, hn⟩
    | some n => exact ⟨n, (Guess_hit T p d n h)⟩
  · simp [sliceFrom, hb2]

/-- C5: the directory argument is unused: for any two directories `d1`, `d2`,
`Guess(T).ResolvePackage(p, d1)` equals `Guess(T).ResolvePackage(p, d2)` and
`Map(T).ResolvePackage(p, d1)` equals `Map(T).ResolvePackage(p, d2)`, name and
error alike. -/
theorem C5_directory_unused (T : GoMap) (p d1 d2 : GoString) :
    Guess.ResolvePackage T p d1 = Guess.ResolvePackage T p d2 ∧
      Map.ResolvePackage T p d1 = Map.ResolvePackage T p d2 :=
  ⟨rfl, rfl⟩

/-- C6: a call `Guess(T).ResolvePackage(p, d)` run on the table `T` ends on a
table equal to `T`, and a second call, run on the table the first one left,
returns the same name and error and again ends on `T`; the same holds of
`Map(T).ResolvePackage(p, d)`.  This covers the success path and the error path:
the outcomes are those of the functional forms on `T`. -/
theorem C6_deterministic_read_only (T : GoMap) (p d : GoString) :
    ((Guess.execResolvePackage p d T).2 = T ∧
        (Guess.execResolvePackage p d (Guess.execResolvePackage p d T).2).1
          = (Guess.execResolvePackage p d T).1 ∧
        (Guess.execResolvePackage p d (Guess.execResolvePackage p d T).2).2 = T ∧
        (Guess.execResolvePackage p d T).1 = Guess.ResolvePackage T p d) ∧
      ((Map.execResolvePackage p d T).2 = T ∧
        (Map.execResolvePackage p d (Map.execResolvePackage p d T).2).1
          = (Map.execResolvePackage p d T).1 ∧
        (Map.execResolvePackage p d (Map.execResolvePackage p d T).2).2 = T ∧
        (Map.execResolvePackage p d T).1 = Map.ResolvePackage T p d) := by
  have hg := Guess_exec_eq p d T
  have hm := Map_exec_eq p d T
  refine ⟨⟨?_, ?_, ?_, ?_⟩, ⟨?_, ?_, ?_, ?_⟩⟩
  · rw [hg]
  · simp only [hg]
  · simp only [hg]
  · rw [hg]
  · rw [hm]
  · simp only [hm]
  · simp only [hm]
  · rw [hm]

/-- C7: `ResolveIdent` returns the empty string with a nil error for every
identifier that the type facts bind to a local declaration (or to a builtin),
and for every identifier that the type facts mark as declared in the package of
an import path it returns that import path, which is not empty, with a nil
error. -/
theorem C7_resolve_ident (id : Ident) (info : TypeInfo) (file : File) (dir : GoString) :
    (info.Uses.lookup id = some DeclaringScope.localDecl →
        ResolveIdent id info file dir = ([], none)) ∧
      (info.Uses.lookup id = some DeclaringScope.universe →
        ResolveIdent id info file dir = ([], none)) ∧
      (∀ q, info.Uses.lookup id = some (DeclaringScope.importedPackage q) →
        ResolveIdent id info file dir = (q.val, none) ∧
          (ResolveIdent id info file dir).1 ≠ []) := by
  refine ⟨fun h => by simp [ResolveIdent, h], fun h => by simp [ResolveIdent, h], ?_⟩
  intro q hq
  have hres : ResolveIdent id info file dir = (q.val, none) := by
    simp [ResolveIdent, hq]
  refine ⟨hres, ?_⟩
  rw [hres]
  exact q.property

/-- The file of the opening comment of the source: its only import is the
wildcard import of path `"a"`. -/
def dotImportFile : File := ⟨[⟨some (str "."), ⟨str "a", by decide⟩⟩]⟩

/-- Type facts for `dotImportFile`: `Foo` is declared in package `a`, `bar` by
a local function. -/
def dotImportInfo : TypeInfo :=
  ⟨(AList.singleton (⟨40, str "Foo"⟩ : Ident)
      (DeclaringScope.importedPackage ⟨str "a", by decide⟩)).insert
    ⟨60, str "bar"⟩ DeclaringScope.localDecl⟩

theorem C7_resolve_ident_witness :
    (dotImportInfo.Uses.lookup ⟨40, str "Foo"⟩
        = some (DeclaringScope.importedPackage ⟨str "a", by decide⟩) ∧
      ResolveIdent ⟨40, str "Foo"⟩ dotImportInfo dotImportFile (str ".") = (str "a", none) ∧
      (ResolveIdent ⟨40, str "Foo"⟩ dotImportInfo dotImportFile (str ".")).1 ≠ []) ∧
    (dotImportInfo.Uses.lookup ⟨60, str "bar"⟩ = some DeclaringScope.localDecl ∧
      ResolveIdent ⟨60, str "bar"⟩ dotImportInfo dotImportFile (str ".") = ([], none)) :=
  ⟨⟨by decide,
      (C7_resolve_ident ⟨40, str "Foo"⟩ dotImportInfo dotImportFile (str ".")).2.2
        ⟨str "a", by decide⟩ (by decide)⟩,
    ⟨by decide,
      (C7_resolve_ident ⟨60, str "bar"⟩ dotImportInfo dotImportFile (str ".")).1 (by decide)⟩⟩

/-- C8: package names are not unique per import path: on the empty table the
distinct paths `"a/x"` and `"b/x"` both resolve under Guess to the name `"x"`
with a nil error, so Guess is not injective in the import path. -/
theorem C8_guess_not_injective :
    str "a/x" ≠ str "b/x" ∧
      Guess.ResolvePackage ∅ (str "a/x") (str ".") = some (str "x", none) ∧
      Guess.ResolvePackage ∅ (str "b/x") (str ".") = some (str "x", none) ∧
      ¬ Function.Injective (fun p => Guess.ResolvePackage ∅ p (str ".")) := by
  refine ⟨by decide, by decide, by decide, fun hinj => ?_⟩
  have h : str "a/x" = str "b/x" := hinj (by decide)
  exact absurd h (by decide)

/-- C9: Guess refines Map: whenever `Map(T).ResolvePackage(p, d)` succeeds with
name `n`, `Guess(T).ResolvePackage(p, d)` returns the same `n` with a nil error;
on every key of `T` the two resolvers return the same pair, and on a path that
is not a key Map fails with `PackageNotFoundError` while Guess returns, with a
nil error, the path itself (no slash) or what follows its last slash. -/
theorem C9_guess_refines_map (T : GoMap) (p d : GoString) :
    (∀ n, Map.ResolvePackage T p d = (n, none) →
        Guess.ResolvePackage T p d = some (n, none)) ∧
      (p ∈ T → Guess.ResolvePackage T p d = some (Map.ResolvePackage T p d)) ∧
      (p ∉ T → Map.ResolvePackage T p d = ([], PackageNotFoundError) ∧
        ∃ m, Guess.ResolvePackage T p d = some (m, none) ∧
          (((0x2F : UInt8) ∉ p ∧ m = p) ∨
            ∃ pre, p = pre ++ 0x2F :: m ∧ (0x2F : UInt8) ∉ m)) := by
  cases h : T.lookup p with
  | none =>
    have hp : p ∉ T := AList.lookup_eq_none.1 h
    have hm : Map.ResolvePackage T p d = ([], PackageNotFoundError) := by
      simp [Map.ResolvePackage, index_of_lookup_none h]
    refine ⟨?_, fun hin => absurd hin hp, fun _ => ⟨hm, Guess_miss_cases T p d h⟩⟩
    intro n hn
    rw [hm] at hn
    simp [PackageNotFoundError, errors.New] at hn
  | some v =>
    have hp : p ∈ T := AList.lookup_isSome.1 (by simp [h])
    have hm : Map.ResolvePackage T p d = (v, none) := by
      simp [Map.ResolvePackage, index_of_lookup_some h]
    refine ⟨?_, fun _ => ?_, fun hnot => absurd hp hnot⟩
    · intro n hn
      rw [hm] at hn
      have hvn : v = n := (Prod.mk.inj hn).1
      rw [← hvn]
      exact Guess_hit T p d v h
    · rw [hm]
      exact Guess_hit T p d v h

theorem C9_guess_refines_map_witness :
    Map.ResolvePackage (AList.singleton (str "gopkg.in/yaml.v2") (str "yaml"))
        (str "gopkg.in/yaml.v2") (str "/src") = (str "yaml", none) ∧
      Guess.ResolvePackage (AList.singleton (str "gopkg.in/yaml.v2") (str "yaml"))
        (str "gopkg.in/yaml.v2") (str "/src") = some (str "yaml", none) :=
  ⟨by decide,
    (C9_guess_refines_map (AList.singleton (str "gopkg.in/yaml.v2") (str "yaml"))
      (str "gopkg.in/yaml.v2") (str "/src")).1 _ (by decide)⟩

/-- C10: when `p` is not a key of `T`, the name `n` that
`Guess(T).ResolvePackage(p, d)` returns holds no slash and is a suffix of `p`;
when `p` holds a slash, `p = pre ++ "/" ++ n` for some `pre`, and `n` is strictly
shorter than `p`. -/
theorem C10_guess_final_segment (T : GoMap) (p d : GoString) (hp : p ∉ T) :
    ∃ n, Guess.ResolvePackage T p d = some (n, none) ∧
      (0x2F : UInt8) ∉ n ∧ n <:+ p ∧
      ((0x2F : UInt8) ∈ p → (∃ pre, p = pre ++ [0x2F] ++ n) ∧ n.length < p.length) := by
  obtain ⟨n, hn, hcase⟩ := Guess_miss_cases T p d (AList.lookup_eq_none.2 hp)
  refine ⟨n, hn, ?_⟩
  rcases hcase with ⟨hno, rfl⟩ | ⟨pre, rfl, hno⟩
  · exact ⟨hno, List.suffix_refl _, fun hin => absurd hin hno⟩
  · refine ⟨hno, ⟨pre ++ [0x2F], by simp⟩, fun _ => ⟨⟨pre, by simp⟩, ?_⟩⟩
    simp only [List.length_append, List.length_cons]
    omega

theorem C10_guess_final_segment_witness :
    str "a/b/c" ∉ (∅ : GoMap) ∧
      ∃ n, Guess.ResolvePackage ∅ (str "a/b/c") (str ".") = some (n, none) ∧
        (0x2F : UInt8) ∉ n ∧ n <:+ str "a/b/c" ∧
        ((0x2F : UInt8) ∈ str "a/b/c" →
          (∃ pre, str "a/b/c" = pre ++ [0x2F] ++ n) ∧ n.length < (str "a/b/c").length) :=
  ⟨AList.not_mem_empty _, C10_guess_final_segment ∅ _ _ (AList.not_mem_empty _)⟩

/-- A string split at its last `c` ends with `c` only when nothing follows the split. -/
theorem eq_nil_of_suffix_single (c : UInt8) (pre n : GoString)
    (hsuf : [c] <:+ pre ++ c :: n) (hn : c ∉ n) : n = [] := by
  rcases List.eq_nil_or_concat n with h | ⟨L, b, h⟩
  · exact h
  · exfalso
    obtain ⟨t, ht⟩ := hsuf
    rw [h, List.concat_eq_append] at ht
    have ht2 : t ++ [c] = (pre ++ c :: L) ++ [b] := by simpa using ht
    have hcb : [c] = [b] := (List.append_inj' ht2 rfl).2
    have hmem : c ∈ n := by
      rw [h, List.concat_eq_append, (List.cons.inj hcb).1]
      simp
    exact hn hmem

/-- C11: when `p` is not a key of `T`, `Guess(T).ResolvePackage(p, d)` returns with
a nil error, and the name it returns is the empty string exactly when `p` is
empty or `p` ends with a slash. -/
theorem C11_guess_empty_name (T : GoMap) (p d : GoString) (hp : p ∉ T) :
    (∃ n, Guess.ResolvePackage T p d = some (n, none)) ∧
      (Guess.ResolvePackage T p d = some ([], none) ↔ (p = [] ∨ [0x2F] <:+ p)) := by
  obtain ⟨n, hn, hcase⟩ := Guess_miss_cases T p d (AList.lookup_eq_none.2 hp)
  refine ⟨⟨n, hn⟩, ?_⟩
  rw [hn]
  rcases hcase with ⟨hno, rfl⟩ | ⟨pre, rfl, hno⟩
  · constructor
    · intro h
      exact Or.inl (Prod.mk.inj (Option.some.inj h)).1
    · rintro (h | h)
      · rw [h]
      · exact absurd (h.subset (List.mem_singleton_self _)) hno
  · constructor
    · intro h
      have hnil : n = [] := (Prod.mk.inj (Option.some.inj h)).1
      subst hnil
      exact Or.inr ⟨pre, rfl⟩
    · rintro (h | h)
      · simp at h
      · rw [eq_nil_of_suffix_single _ pre n h hno]

theorem C11_guess_empty_name_witness :
    (str "github.com/foo/" ∉ (∅ : GoMap) ∧
      (∃ n, Guess.ResolvePackage ∅ (str "github.com/foo/") (str ".") = some (n, none)) ∧
      (Guess.ResolvePackage ∅ (str "github.com/foo/") (str ".") = some ([], none) ↔
        (str "github.com/foo/" = [] ∨ [0x2F] <:+ str "github.com/foo/"))) ∧
      Guess.ResolvePackage ∅ (str "github.com/foo/") (str ".") = some ([], none) ∧
      Guess.ResolvePackage ∅ (str "") (str ".") = some ([], none) :=
  ⟨⟨AList.not_mem_empty _, C11_guess_empty_name ∅ _ _ (AList.not_mem_empty _)⟩,
    by decide, by decide⟩

/-- Both resolvers read the table at `importPath` only: tables with the same
entry there give the same results. -/
theorem resolve_congr (T1 T2 : GoMap) (p d1 d2 : GoString)
    (h : T1.lookup p = T2.lookup p) :
    Guess.ResolvePackage T1 p d1 = Guess.ResolvePackage T2 p d2 ∧
      Map.ResolvePackage T1 p d1 = Map.ResolvePackage T2 p d2 := by
  simp [Guess.ResolvePackage, Map.ResolvePackage, GoMap.index, h]

/-- C12: the last-segment guess is idempotent: on the empty table, if
`Guess({}).ResolvePackage(p, d1)` returns the name `n`, then
`Guess({}).ResolvePackage(n, d2)` returns `n` again, with a nil error. -/
theorem C12_guess_idempotent (p d1 d2 n : GoString) (e : error)
    (h : Guess.ResolvePackage ∅ p d1 = some (n, e)) :
    Guess.ResolvePackage ∅ n d2 = some (n, none) := by
  have hempty : ∀ q : GoString, (∅ : GoMap).lookup q = none := fun q =>
    AList.lookup_eq_none.2 (AList.not_mem_empty q)
  obtain ⟨m, hm, hcase⟩ := Guess_miss_cases ∅ p d1 (hempty p)
  rw [hm] at h
  have hmn : m = n := (Prod.mk.inj (Option.some.inj h)).1
  subst hmn
  rcases hcase with ⟨hno, rfl⟩ | ⟨pre, _, hno⟩
  · exact Guess_miss_noslash ∅ m d2 (hempty m) hno
  · exact Guess_miss_noslash ∅ m d2 (hempty m) hno

theorem C12_guess_idempotent_witness :
    Guess.ResolvePackage ∅ (str "golang.org/x/tools") (str "/home") = some (str "tools", none) ∧
      Guess.ResolvePackage ∅ (str "tools") (str "/tmp") = some (str "tools", none) :=
  ⟨by decide,
    C12_guess_idempotent (str "golang.org/x/tools") (str "/home") (str "/tmp") (str "tools")
      none (by decide)⟩

/-- C13: the result for a path `p` depends only on the entry of the table at
`p`: when `T1` and `T2` agree at `p` (both lack `p`, or both hold `p` with the
same name), Guess gives the same result on both and so does Map; and setting
or deleting the entry of any other path `q` changes the result for `p` under
neither resolver. -/
theorem C13_depends_only_on_own_entry (T1 T2 : GoMap) (p d1 d2 : GoString)
    (h : (p ∉ T1 ∧ p ∉ T2) ∨ ∃ n, T1.lookup p = some n ∧ T2.lookup p = some n) :
    (Guess.ResolvePackage T1 p d1 = Guess.ResolvePackage T2 p d2 ∧
        Map.ResolvePackage T1 p d1 = Map.ResolvePackage T2 p d2) ∧
      (∀ q v : GoString, q ≠ p →
        Guess.ResolvePackage (T1.insert q v) p d1 = Guess.ResolvePackage T1 p d1 ∧
          Map.ResolvePackage (T1.insert q v) p d1 = Map.ResolvePackage T1 p d1) ∧
      (∀ q : GoString, q ≠ p →
        Guess.ResolvePackage (T1.erase q) p d1 = Guess.ResolvePackage T1 p d1 ∧
          Map.ResolvePackage (T1.erase q) p d1 = Map.ResolvePackage T1 p d1) := by
  refine ⟨?_, ?_, ?_⟩
  · apply resolve_congr
    rcases h with ⟨h1, h2⟩ | ⟨n, h1, h2⟩
    · rw [AList.lookup_eq_none.2 h1, AList.lookup_eq_none.2 h2]
    · rw [h1, h2]
  · intro q v hq
    exact resolve_congr _ _ p d1 d1 (AList.lookup_insert_ne (Ne.symm hq))
  · intro q hq
    exact resolve_congr _ _ p d1 d1 (AList.lookup_erase_ne (Ne.symm hq))

/-- A table whose keys share the last segment of `"a/x"`, or are the start or
the end of it. -/
def neighbourTable : GoMap :=
  ((AList.singleton (str "b/x") (str "one")).insert (str "a") (str "two")).insert
    (str "x") (str "three")

theorem C13_depends_only_on_own_entry_witness :
    ((str "a/x" ∉ neighbourTable ∧ str "a/x" ∉ (∅ : GoMap)) ∨
        ∃ n, neighbourTable.lookup (str "a/x") = some n ∧
          (∅ : GoMap).lookup (str "a/x") = some n) ∧
      Guess.ResolvePackage neighbourTable (str "a/x") (str ".")
        = Guess.ResolvePackage ∅ (str "a/x") (str "/src") ∧
      Map.ResolvePackage neighbourTable (str "a/x") (str ".")
        = Map.ResolvePackage ∅ (str "a/x") (str "/src") ∧
      Guess.ResolvePackage neighbourTable (str "a/x") (str ".") = some (str "x", none) :=
  have hw : (str "a/x" ∉ neighbourTable ∧ str "a/x" ∉ (∅ : GoMap)) ∨
      ∃ n, neighbourTable.lookup (str "a/x") = some n ∧
        (∅ : GoMap).lookup (str "a/x") = some n :=
    Or.inl ⟨AList.lookup_eq_none.1 (by decide), AList.not_mem_empty _⟩
  ⟨hw, (C13_depends_only_on_own_entry neighbourTable ∅ (str "a/x") (str ".") (str "/src")
      hw).1.1,
    (C13_depends_only_on_own_entry neighbourTable ∅ (str "a/x") (str ".") (str "/src")
      hw).1.2, by decide⟩

end resolver
